import Mathlib

/-!
# Verification of the ZotQuery mirroring/caching core

Shallow embedding of `zotquery/backend.py` and `zotquery/cache.py`:

* a JSON value type mirroring the Python values the extractor produces,
  with a serializer (`dumps`) and parser (`loads`) modelling `json.dumps` /
  `json.loads` as used by the cache;
* the key-value cache (`Cache.set` / `Cache.get` / `Cache.delete`);
* the freshness check (`is_fresh`);
* the FTS ranking function (`make_rank_func`);
* the column projection (`get_datum`);
* the item extraction pass (`get_all_items`) and its sub-extractions.

Strings are modelled as `List Char`; machine floats (timestamps, ranking
weights) are modelled as exact rationals.
-/

/-- Python unicode strings, modelled as lists of characters. -/
abbrev Str := List Char

/-- JSON-serialisable Python values as produced by the extractor and stored
by the cache: `None`, booleans, (unbounded) integers, unicode strings,
lists, and dicts (modelled as ordered association lists, matching the
`OrderedDict` instances the backend builds). -/
inductive Json where
  | null : Json
  | bool : Bool → Json
  | num : Int → Json
  | str : Str → Json
  | arr : List Json → Json
  | obj : List (Str × Json) → Json

/-! ## Serialisation: model of `json.dumps` -/

/-- The character for a single decimal digit. -/
def digitChar (d : Nat) : Char :=
  match d with
  | 0 => '0' | 1 => '1' | 2 => '2' | 3 => '3' | 4 => '4'
  | 5 => '5' | 6 => '6' | 7 => '7' | 8 => '8' | _ => '9'

/-- The character for a single hexadecimal digit (lower case). -/
def hexChar (d : Nat) : Char :=
  match d with
  | 0 => '0' | 1 => '1' | 2 => '2' | 3 => '3' | 4 => '4'
  | 5 => '5' | 6 => '6' | 7 => '7' | 8 => '8' | 9 => '9'
  | 10 => 'a' | 11 => 'b' | 12 => 'c' | 13 => 'd' | 14 => 'e' | _ => 'f'

/-- Decimal digits of `n`, most significant first; `fuel` bounds the
number of digits and is irrelevant as long as it exceeds `n`. -/
def natCharsAux : Nat → Nat → Str
  | 0, _ => []
  | fuel + 1, n =>
    if n < 10 then [digitChar n]
    else natCharsAux fuel (n / 10) ++ [digitChar (n % 10)]

/-- Decimal representation of a natural number, most significant digit
first (as printed by `json.dumps` for non-negative ints). -/
def natChars (n : Nat) : Str := natCharsAux (n + 1) n

/-- Decimal representation of a Python int. -/
def intChars (i : Int) : Str :=
  if i < 0 then '-' :: natChars i.natAbs else natChars i.toNat

/-- JSON string escaping of one character: `"` and `\` get a backslash,
control characters become `\u00XX`; all other characters stand for
themselves. -/
def escapeChar (c : Char) : Str :=
  if c = '"' then ['\\', '"']
  else if c = '\\' then ['\\', '\\']
  else if c.toNat < 32 then
    ['\\', 'u', '0', '0', hexChar (c.toNat / 16), hexChar (c.toNat % 16)]
  else [c]

/-- JSON string escaping. -/
def escapeStr (s : Str) : Str := s.flatMap escapeChar

mutual

/-- Model of `json.dumps` on the value level (Python 2 `json.dumps` with
its default separators `', '` and `': '`). -/
def dumps : Json → Str
  | .null => 'n' :: 'u' :: 'l' :: 'l' :: []
  | .bool true => 't' :: 'r' :: 'u' :: 'e' :: []
  | .bool false => 'f' :: 'a' :: 'l' :: 's' :: 'e' :: []
  | .num i => intChars i
  | .str s => '"' :: (escapeStr s ++ ['"'])
  | .arr l => '[' :: dumpsArr l
  | .obj l => '{' :: dumpsObj l

/-- Body of a dumped array: the elements separated by `", "`, then `]`. -/
def dumpsArr : List Json → Str
  | [] => [']']
  | [v] => dumps v ++ [']']
  | v :: rest => dumps v ++ ',' :: ' ' :: dumpsArr rest

/-- Body of a dumped object: `"key": value` pairs separated by `", "`,
then `}`. -/
def dumpsObj : List (Str × Json) → Str
  | [] => ['}']
  | [(k, v)] => '"' :: (escapeStr k ++ '"' :: ':' :: ' ' :: (dumps v ++ ['}']))
  | (k, v) :: rest =>
      '"' :: (escapeStr k ++ '"' :: ':' :: ' ' :: (dumps v ++ ',' :: ' ' :: dumpsObj rest))

end

/-! ## Parsing: model of `json.loads` -/

/-- JSON whitespace. -/
def isWs (c : Char) : Bool := c == ' ' || c == '\n' || c == '\t' || c == '\r'

/-- An ASCII decimal digit. -/
def isDigitC (c : Char) : Bool := '0' ≤ c && c ≤ '9'

/-- Skip leading whitespace. -/
def skipWs : Str → Str
  | [] => []
  | c :: r => if isWs c then skipWs r else c :: r

/-- Numeric value of one decimal digit character. -/
def digitVal (c : Char) : Nat := c.toNat - 48

/-- Value of a most-significant-first decimal digit string. -/
def digitsToNat (ds : Str) : Nat := ds.foldl (fun a c => 10 * a + digitVal c) 0

/-- Numeric value of one hexadecimal digit character, if it is one. -/
def hexVal (c : Char) : Option Nat :=
  if '0' ≤ c ∧ c ≤ '9' then some (c.toNat - 48)
  else if 'a' ≤ c ∧ c ≤ 'f' then some (c.toNat - 87)
  else if 'A' ≤ c ∧ c ≤ 'F' then some (c.toNat - 55)
  else none

/-- Parse a non-empty run of decimal digits. -/
def parseNat (s : Str) : Option (Nat × Str) :=
  let ds := s.takeWhile isDigitC
  if ds.isEmpty then none else some (digitsToNat ds, s.dropWhile isDigitC)

/-- Parse four hex digits of a `\uXXXX` escape. -/
def hex4 (h1 h2 h3 h4 : Char) : Option Char :=
  match hexVal h1, hexVal h2, hexVal h3, hexVal h4 with
  | some a, some b, some c, some d =>
    some (Char.ofNat (((a * 16 + b) * 16 + c) * 16 + d))
  | _, _, _, _ => none

/-- Parse the body of a JSON string (input starts after the opening
quote); returns the unescaped contents and the input after the closing
quote. -/
def parseStrBody : Str → Option (Str × Str)
  | [] => none
  | c :: r =>
    if c = '"' then some ([], r)
    else if c = '\\' then
      match r with
      | [] => none
      | e :: r' =>
        if e = '"' then (fun p => ('"' :: p.1, p.2)) <$> parseStrBody r'
        else if e = '\\' then (fun p => ('\\' :: p.1, p.2)) <$> parseStrBody r'
        else if e = '/' then (fun p => ('/' :: p.1, p.2)) <$> parseStrBody r'
        else if e = 'b' then (fun p => ('\x08' :: p.1, p.2)) <$> parseStrBody r'
        else if e = 'f' then (fun p => ('\x0c' :: p.1, p.2)) <$> parseStrBody r'
        else if e = 'n' then (fun p => ('\n' :: p.1, p.2)) <$> parseStrBody r'
        else if e = 'r' then (fun p => ('\r' :: p.1, p.2)) <$> parseStrBody r'
        else if e = 't' then (fun p => ('\t' :: p.1, p.2)) <$> parseStrBody r'
        else if e = 'u' then
          match r' with
          | h1 :: h2 :: h3 :: h4 :: r'' =>
            match hex4 h1 h2 h3 h4 with
            | some ch => (fun p => (ch :: p.1, p.2)) <$> parseStrBody r''
            | none => none
          | _ => none
        else none
    else (fun p => (c :: p.1, p.2)) <$> parseStrBody r

/-- Match an expected literal character sequence. -/
def expectChars : Str → Str → Option Str
  | [], s => some s
  | _ :: _, [] => none
  | c :: cs, x :: xs => if x = c then expectChars cs xs else none

mutual

/-- One recursion layer of the JSON value parser; the fuel argument only
bounds nesting depth and strictly decreases on every recursive call. -/
def parseVal : Nat → Str → Option (Json × Str)
  | 0, _ => none
  | fuel + 1, s =>
    match skipWs s with
    | [] => none
    | c :: r =>
      if c = 'n' then (fun r' => (Json.null, r')) <$> expectChars ['u', 'l', 'l'] r
      else if c = 't' then (fun r' => (Json.bool true, r')) <$> expectChars ['r', 'u', 'e'] r
      else if c = 'f' then (fun r' => (Json.bool false, r')) <$> expectChars ['a', 'l', 's', 'e'] r
      else if c = '"' then (fun p => (Json.str p.1, p.2)) <$> parseStrBody r
      else if c = '-' then (fun p => (Json.num (-(p.1 : Int)), p.2)) <$> parseNat r
      else if c = '[' then
        match skipWs r with
        | [] => none
        | c2 :: r2 =>
          if c2 = ']' then some (.arr [], r2)
          else (fun p => (Json.arr p.1, p.2)) <$> parseArrElems fuel (c2 :: r2)
      else if c = '{' then
        match skipWs r with
        | [] => none
        | c2 :: r2 =>
          if c2 = '}' then some (.obj [], r2)
          else (fun p => (Json.obj p.1, p.2)) <$> parseObjElems fuel (c2 :: r2)
      else if isDigitC c then (fun p => (Json.num (p.1 : Int), p.2)) <$> parseNat (c :: r)
      else none

/-- Parse the elements of a non-empty JSON array, consuming the closing
bracket. -/
def parseArrElems : Nat → Str → Option (List Json × Str)
  | 0, _ => none
  | fuel + 1, s => do
    let (v, r) ← parseVal fuel s
    match skipWs r with
    | ']' :: r' => some ([v], r')
    | ',' :: r' => do
      let (vs, r'') ← parseArrElems fuel r'
      some (v :: vs, r'')
    | _ => none

/-- Parse the members of a non-empty JSON object, consuming the closing
brace. -/
def parseObjElems : Nat → Str → Option (List (Str × Json) × Str)
  | 0, _ => none
  | fuel + 1, s =>
    match skipWs s with
    | '"' :: r => do
      let (k, r1) ← parseStrBody r
      match skipWs r1 with
      | ':' :: r2 => do
        let (v, r3) ← parseVal fuel r2
        match skipWs r3 with
        | '}' :: r4 => some ([(k, v)], r4)
        | ',' :: r4 => do
          let (kvs, r5) ← parseObjElems fuel r4
          some ((k, v) :: kvs, r5)
        | _ => none
      | _ => none
    | _ => none

end

/-- Model of `json.loads`: parse one JSON value and require that only
whitespace follows. -/
def loads (s : Str) : Option Json :=
  match parseVal s.length s with
  | some (v, r) => if skipWs r = [] then some v else none
  | none => none

/-! ## The serialisation round trip -/

mutual

/-- Fuel sufficient for `parseVal` to parse a dumped value. -/
def jfuel : Json → Nat
  | .null | .bool _ | .num _ | .str _ => 1
  | .arr l => 1 + jfuelArr l
  | .obj l => 1 + jfuelObj l

/-- Fuel sufficient for `parseArrElems` on dumped array elements. -/
def jfuelArr : List Json → Nat
  | [] => 0
  | v :: vs => 1 + jfuel v + jfuelArr vs

/-- Fuel sufficient for `parseObjElems` on dumped object members. -/
def jfuelObj : List (Str × Json) → Nat
  | [] => 0
  | (_, v) :: ps => 1 + jfuel v + jfuelObj ps

end

/-- A suffix that cannot extend a decimal literal: empty or starting with
a non-digit. -/
def GoodRest (rest : Str) : Prop := ∀ c t, rest = c :: t → isDigitC c = false

theorem goodRest_nil : GoodRest [] := fun _ _ h => by cases h

theorem goodRest_cons {c : Char} (h : isDigitC c = false) (t : Str) :
    GoodRest (c :: t) := fun _ _ he => by cases he; exact h

theorem isDigitC_digitChar (d : Nat) : isDigitC (digitChar d) = true := by
  unfold digitChar
  rcases d with _ | _ | _ | _ | _ | _ | _ | _ | _ | d <;> rfl

theorem digitVal_digitChar {d : Nat} (h : d < 10) : digitVal (digitChar d) = d := by
  unfold digitChar
  rcases d with _ | _ | _ | _ | _ | _ | _ | _ | _ | d <;>
    first
      | rfl
      | (have hd : d = 0 := by omega
         subst hd; rfl)

/-- Digit characters are not whitespace and are distinct from all the
structural characters the parsers dispatch on. -/
theorem isDigitC_facts {c : Char} (h : isDigitC c = true) :
    isWs c = false ∧ c ≠ 'n' ∧ c ≠ 't' ∧ c ≠ 'f' ∧ c ≠ '"' ∧ c ≠ '-' ∧
      c ≠ '[' ∧ c ≠ '{' ∧ c ≠ ']' ∧ c ≠ '}' ∧ c ≠ ',' ∧ c ≠ ':' ∧ c ≠ '\\' := by
  refine ⟨?_, ?_, ?_, ?_, ?_, ?_, ?_, ?_, ?_, ?_, ?_, ?_, ?_⟩ <;>
    first
      | (intro he; rw [he] at h; exact absurd h (by decide))
      | (rcases hw : isWs c with _ | _
         · rfl
         · exfalso
           unfold isWs at hw
           rcases Bool.or_eq_true_iff.mp hw with hw' | hw'
           · rcases Bool.or_eq_true_iff.mp hw' with hw'' | hw''
             · rcases Bool.or_eq_true_iff.mp hw'' with hw3 | hw3 <;>
                 (first
                   | (rw [show c = ' ' from eq_of_beq hw3] at h; exact absurd h (by decide))
                   | (rw [show c = '\n' from eq_of_beq hw3] at h; exact absurd h (by decide)))
             · rw [show c = '\t' from eq_of_beq hw''] at h; exact absurd h (by decide)
           · rw [show c = '\r' from eq_of_beq hw'] at h; exact absurd h (by decide))

theorem natCharsAux_head (fuel n : Nat) :
    ∃ c t, natCharsAux (fuel + 1) n = c :: t ∧ isDigitC c = true := by
  induction fuel generalizing n with
  | zero =>
    unfold natCharsAux
    by_cases h : n < 10
    · exact ⟨digitChar n, [], by simp [h], isDigitC_digitChar n⟩
    · exact ⟨digitChar (n % 10), [], by simp [h, natCharsAux], isDigitC_digitChar _⟩
  | succ fuel ih =>
    unfold natCharsAux
    by_cases h : n < 10
    · exact ⟨digitChar n, [], by simp [h], isDigitC_digitChar n⟩
    · obtain ⟨c, t, hct, hd⟩ := ih (n / 10)
      exact ⟨c, t ++ [digitChar (n % 10)], by simp [h, hct], hd⟩

theorem natCharsAux_digits (fuel n : Nat) :
    ∀ c ∈ natCharsAux fuel n, isDigitC c = true := by
  induction fuel generalizing n with
  | zero => intro c hc; cases hc
  | succ fuel ih =>
    intro c hc
    unfold natCharsAux at hc
    by_cases h : n < 10
    · simp [h] at hc
      cases hc; exact isDigitC_digitChar n
    · simp [h] at hc
      rcases hc with hc | hc
      · exact ih _ c hc
      · cases hc; exact isDigitC_digitChar _

theorem digitsToNat_append_singleton (a : Str) (c : Char) :
    digitsToNat (a ++ [c]) = 10 * digitsToNat a + digitVal c := by
  simp [digitsToNat, List.foldl_append]

theorem takeWhile_append_all {p : Char → Bool} {a : Str} (b : Str)
    (h : ∀ c ∈ a, p c = true) : (a ++ b).takeWhile p = a ++ b.takeWhile p := by
  induction a with
  | nil => rfl
  | cons c a ih =>
    simp only [List.cons_append, List.takeWhile_cons, h c (by simp)]
    simp [ih (fun c hc => h c (by simp [hc]))]

theorem dropWhile_append_all {p : Char → Bool} {a : Str} (b : Str)
    (h : ∀ c ∈ a, p c = true) : (a ++ b).dropWhile p = b.dropWhile p := by
  induction a with
  | nil => rfl
  | cons c a ih =>
    simp only [List.cons_append, List.dropWhile_cons, h c (by simp)]
    exact ih (fun c hc => h c (by simp [hc]))

theorem takeWhile_goodRest {rest : Str} (h : GoodRest rest) :
    rest.takeWhile isDigitC = [] := by
  cases rest with
  | nil => rfl
  | cons c t => simp [List.takeWhile_cons, h c t rfl]

theorem dropWhile_goodRest {rest : Str} (h : GoodRest rest) :
    rest.dropWhile isDigitC = rest := by
  cases rest with
  | nil => rfl
  | cons c t => simp [List.dropWhile_cons, h c t rfl]

theorem digitsToNat_natCharsAux {fuel n : Nat} (h : n < fuel) :
    digitsToNat (natCharsAux fuel n) = n := by
  induction fuel generalizing n with
  | zero => omega
  | succ fuel ih =>
    unfold natCharsAux
    by_cases h10 : n < 10
    · simp [h10, digitsToNat, digitVal_digitChar h10]
    · have hdiv : n / 10 < fuel := by
        have hlt : n / 10 < n := Nat.div_lt_self (by omega) (by omega)
        omega
      simp [h10, digitsToNat_append_singleton, ih hdiv,
        digitVal_digitChar (Nat.mod_lt n (by omega))]
      omega

theorem natChars_ne_nil (n : Nat) : natChars n ≠ [] := by
  unfold natChars natCharsAux
  by_cases h : n < 10 <;> simp [h]

/-- `parseNat` inverts decimal printing, for any suffix that does not
begin with another digit. -/
theorem parseNat_natChars (n : Nat) {rest : Str} (hr : GoodRest rest) :
    parseNat (natChars n ++ rest) = some (n, rest) := by
  have hdig : ∀ c ∈ natChars n, isDigitC c = true := natCharsAux_digits _ n
  have htw : (natChars n ++ rest).takeWhile isDigitC = natChars n := by
    rw [takeWhile_append_all rest hdig, takeWhile_goodRest hr, List.append_nil]
  have hdw : (natChars n ++ rest).dropWhile isDigitC = rest := by
    rw [dropWhile_append_all rest hdig, dropWhile_goodRest hr]
  unfold parseNat
  simp only [htw, hdw]
  rw [if_neg (by simp [List.isEmpty_iff, natChars_ne_nil n])]
  rw [show digitsToNat (natChars n) = n from digitsToNat_natCharsAux (by omega)]

theorem hexVal_hexChar {d : Nat} (h : d < 16) : hexVal (hexChar d) = some d := by
  unfold hexChar
  rcases d with _ | _ | _ | _ | _ | _ | _ | _ | _ | _ | _ | _ | _ | _ | _ | d <;>
    first
      | rfl
      | (have hd : d = 0 := by omega
         subst hd; rfl)

theorem skipWs_cons_notWs {c : Char} (h : isWs c = false) (r : Str) :
    skipWs (c :: r) = c :: r := by simp [skipWs, h]

theorem intChars_ne_nil (i : Int) : intChars i ≠ [] := by
  unfold intChars
  by_cases h : i < 0 <;> simp [h, natChars_ne_nil]

/-- Every dumped value starts with a non-whitespace character distinct
from the list terminator. -/
theorem dumps_head (v : Json) :
    ∃ c t, dumps v = c :: t ∧ isWs c = false ∧ c ≠ ']' := by
  cases v with
  | null => exact ⟨'n', _, rfl, by decide, by decide⟩
  | bool b =>
    exact match b with
    | false => ⟨'f', _, rfl, by decide, by decide⟩
    | true => ⟨'t', _, rfl, by decide, by decide⟩
  | num i =>
    by_cases hi : i < 0
    · exact ⟨'-', natChars i.natAbs, by simp [dumps, intChars, hi], by decide, by decide⟩
    · obtain ⟨c, t, hct, hd⟩ := natCharsAux_head i.toNat i.toNat
      obtain ⟨hws, -, -, -, -, -, -, -, hnb, -⟩ := isDigitC_facts hd
      exact ⟨c, t, by simp [dumps, intChars, hi]; exact hct, hws, hnb⟩
  | str s => exact ⟨'"', _, rfl, by decide, by decide⟩
  | arr l => exact ⟨'[', _, rfl, by decide, by decide⟩
  | obj l => exact ⟨'{', _, rfl, by decide, by decide⟩

theorem parseVal_ws {c : Char} (h : isWs c = true) (f : Nat) (x : Str) :
    parseVal f (c :: x) = parseVal f x := by
  cases f with
  | zero => rfl
  | succ f =>
    have h2 : skipWs (c :: x) = skipWs x := by simp [skipWs, h]
    simp only [parseVal, h2]

theorem parseArrElems_ws {c : Char} (h : isWs c = true) (f : Nat) (x : Str) :
    parseArrElems f (c :: x) = parseArrElems f x := by
  cases f with
  | zero => rfl
  | succ f => simp only [parseArrElems, parseVal_ws h]

theorem parseObjElems_ws {c : Char} (h : isWs c = true) (f : Nat) (x : Str) :
    parseObjElems f (c :: x) = parseObjElems f x := by
  cases f with
  | zero => rfl
  | succ f =>
    have h2 : skipWs (c :: x) = skipWs x := by simp [skipWs, h]
    simp only [parseObjElems, h2]

mutual

theorem jfuel_le_length (v : Json) : jfuel v ≤ (dumps v).length := by
  cases v with
  | null => simp [jfuel, dumps]
  | bool b => cases b <;> simp [jfuel, dumps]
  | num i =>
    have h := intChars_ne_nil i
    have : 0 < (intChars i).length := List.length_pos.mpr h
    simp only [jfuel, dumps]
    omega
  | str s => simp [jfuel, dumps]
  | arr l =>
    have h := jfuelArr_le_length l
    simp only [jfuel, dumps, List.length_cons]
    omega
  | obj l =>
    have h := jfuelObj_le_length l
    simp only [jfuel, dumps, List.length_cons]
    omega

theorem jfuelArr_le_length (l : List Json) : jfuelArr l ≤ (dumpsArr l).length := by
  cases l with
  | nil => simp [jfuelArr, dumpsArr]
  | cons v vs =>
    cases vs with
    | nil =>
      have h := jfuel_le_length v
      simp only [jfuelArr, dumpsArr, List.length_append, List.length_cons]
      omega
    | cons v2 vs' =>
      have h1 := jfuel_le_length v
      have h2 := jfuelArr_le_length (v2 :: vs')
      simp only [jfuelArr] at h2
      simp only [jfuelArr, dumpsArr, List.length_append, List.length_cons]
      omega

theorem jfuelObj_le_length (l : List (Str × Json)) :
    jfuelObj l ≤ (dumpsObj l).length := by
  cases l with
  | nil => simp [jfuelObj, dumpsObj]
  | cons p ps =>
    obtain ⟨k, v⟩ := p
    cases ps with
    | nil =>
      have h := jfuel_le_length v
      simp only [jfuelObj, dumpsObj, List.length_append, List.length_cons]
      omega
    | cons p2 ps' =>
      have h1 := jfuel_le_length v
      have h2 := jfuelObj_le_length (p2 :: ps')
      simp only [jfuelObj] at h2
      simp only [jfuelObj, dumpsObj, List.length_append, List.length_cons]
      omega

end

theorem jfuel_pos (v : Json) : 1 ≤ jfuel v := by
  cases v <;> simp [jfuel]

theorem dumpsArr_cons_ex (v : Json) (vs : List Json) :
    ∃ X, dumpsArr (v :: vs) = dumps v ++ X := by
  cases vs with
  | nil => exact ⟨[']'], rfl⟩
  | cons v2 vs' => exact ⟨',' :: ' ' :: dumpsArr (v2 :: vs'), rfl⟩

theorem parseVal_arr_dispatch (f0 : Nat) {c : Char} (t : Str)
    (hws : isWs c = false) (hnb : c ≠ ']') :
    parseVal (f0 + 1) ('[' :: c :: t) =
      (fun p => (Json.arr p.1, p.2)) <$> parseArrElems f0 (c :: t) := by
  simp only [parseVal]
  rw [skipWs_cons_notWs (by decide)]
  simp [skipWs_cons_notWs hws, hnb]

theorem parseVal_obj_dispatch (f0 : Nat) {c : Char} (t : Str)
    (hws : isWs c = false) (hnb : c ≠ '}') :
    parseVal (f0 + 1) ('{' :: c :: t) =
      (fun p => (Json.obj p.1, p.2)) <$> parseObjElems f0 (c :: t) := by
  simp only [parseVal]
  rw [skipWs_cons_notWs (by decide)]
  simp [skipWs_cons_notWs hws, hnb]

/-- Unescaping inverts escaping: parsing the escaped body of a string up
to its closing quote recovers the original characters. -/
theorem parseStrBody_escape (s : Str) (rest : Str) :
    parseStrBody (escapeStr s ++ '"' :: rest) = some (s, rest) := by
  induction s with
  | nil =>
    show parseStrBody ('"' :: rest) = _
    rw [parseStrBody.eq_def]; simp
  | cons c s ih =>
    have hesc : escapeStr (c :: s) = escapeChar c ++ escapeStr s := by
      simp [escapeStr]
    rw [hesc, List.append_assoc]
    by_cases hq : c = '"'
    · subst hq
      show parseStrBody ('\\' :: '"' :: (escapeStr s ++ '"' :: rest)) = _
      rw [parseStrBody.eq_def]; simp [ih]
    · by_cases hb : c = '\\'
      · subst hb
        show parseStrBody ('\\' :: '\\' :: (escapeStr s ++ '"' :: rest)) = _
        rw [parseStrBody.eq_def]; simp [ih]
      · by_cases hc : c.toNat < 32
        · have hec : escapeChar c =
              ['\\', 'u', '0', '0', hexChar (c.toNat / 16), hexChar (c.toNat % 16)] := by
            simp [escapeChar, hq, hb, hc]
          rw [hec]
          have hhex : hex4 '0' '0' (hexChar (c.toNat / 16)) (hexChar (c.toNat % 16)) =
              some c := by
            unfold hex4
            rw [hexVal_hexChar (by omega), hexVal_hexChar (Nat.mod_lt _ (by omega))]
            show some (Char.ofNat (((0 * 16 + 0) * 16 + c.toNat / 16) * 16 + c.toNat % 16)) = _
            rw [show ((0 * 16 + 0) * 16 + c.toNat / 16) * 16 + c.toNat % 16 = c.toNat by
              omega]
            rw [Char.ofNat_toNat]
          show parseStrBody
            ('\\' :: 'u' :: '0' :: '0' :: hexChar (c.toNat / 16) ::
              hexChar (c.toNat % 16) :: (escapeStr s ++ '"' :: rest)) = _
          rw [parseStrBody.eq_def]
          simp [hhex, ih]
        · have hec : escapeChar c = [c] := by simp [escapeChar, hq, hb, hc]
          rw [hec]
          show parseStrBody (c :: (escapeStr s ++ '"' :: rest)) = _
          rw [parseStrBody.eq_def]
          simp [hq, hb, ih]

/-- All three parsers invert the corresponding printers, by strong
induction on the fuel. -/
theorem parse_dumps_mutual : ∀ f : Nat,
    (∀ v rest, jfuel v ≤ f → GoodRest rest →
        parseVal f (dumps v ++ rest) = some (v, rest)) ∧
    (∀ l rest, jfuelArr l ≤ f → l ≠ [] → GoodRest rest →
        parseArrElems f (dumpsArr l ++ rest) = some (l, rest)) ∧
    (∀ ps rest, jfuelObj ps ≤ f → ps ≠ [] → GoodRest rest →
        parseObjElems f (dumpsObj ps ++ rest) = some (ps, rest)) := by
  intro f
  induction f using Nat.strong_induction_on with
  | _ f ih =>
    refine ⟨?_, ?_, ?_⟩
    · -- parseVal on a dumped value
      intro v rest hf hr
      obtain ⟨f0, rfl⟩ : ∃ f0, f = f0 + 1 :=
        ⟨f - 1, by have := jfuel_pos v; omega⟩
      cases v with
      | null =>
        show parseVal (f0 + 1) ('n' :: 'u' :: 'l' :: 'l' :: rest) = _
        simp only [parseVal]
        rw [skipWs_cons_notWs (by decide)]
        simp [expectChars]
      | bool b =>
        cases b
        · show parseVal (f0 + 1) ('f' :: 'a' :: 'l' :: 's' :: 'e' :: rest) = _
          simp only [parseVal]
          rw [skipWs_cons_notWs (by decide)]
          simp [expectChars]
        · show parseVal (f0 + 1) ('t' :: 'r' :: 'u' :: 'e' :: rest) = _
          simp only [parseVal]
          rw [skipWs_cons_notWs (by decide)]
          simp [expectChars]
      | num i =>
        by_cases hi : i < 0
        · have hd : dumps (Json.num i) ++ rest =
              '-' :: (natChars i.natAbs ++ rest) := by
            simp [dumps, intChars, hi]
          rw [hd]
          simp only [parseVal]
          rw [skipWs_cons_notWs (by decide)]
          simp [parseNat_natChars _ hr, abs_of_neg hi]
        · obtain ⟨c, t, hct, hdg⟩ := natCharsAux_head i.toNat i.toNat
          have hnc : natChars i.toNat = c :: t := hct
          obtain ⟨hws, hn1, hn2, hn3, hn4, hn5, hn6, hn7, -, -, -, -, -⟩ :=
            isDigitC_facts hdg
          have hd : dumps (Json.num i) ++ rest = c :: (t ++ rest) := by
            simp [dumps, intChars, hi, hnc]
          rw [hd]
          simp only [parseVal]
          rw [skipWs_cons_notWs hws]
          have harg : c :: (t ++ rest) = natChars i.toNat ++ rest := by
            rw [hnc]; rfl
          have hti : ((i.toNat : Int)) = i := by omega
          simp [hn1, hn2, hn3, hn4, hn5, hn6, hn7, hdg, harg,
            parseNat_natChars _ hr, hti]
      | str s =>
        have hd : dumps (Json.str s) ++ rest =
            '"' :: (escapeStr s ++ '"' :: rest) := by
          simp [dumps]
        rw [hd]
        simp only [parseVal]
        rw [skipWs_cons_notWs (by decide)]
        simp [parseStrBody_escape]
      | arr l =>
        cases l with
        | nil =>
          have hd : dumps (Json.arr []) ++ rest = '[' :: ']' :: rest := by
            simp [dumps, dumpsArr]
          rw [hd]
          simp only [parseVal]
          rw [skipWs_cons_notWs (by decide)]
          simp [skipWs, isWs]
        | cons v vs =>
          obtain ⟨c, t, hct, hws, hnb⟩ := dumps_head v
          obtain ⟨X, hX⟩ := dumpsArr_cons_ex v vs
          have h2 : dumpsArr (v :: vs) ++ rest = c :: (t ++ (X ++ rest)) := by
            rw [hX, hct]; simp
          have hd : dumps (Json.arr (v :: vs)) ++ rest =
              '[' :: (c :: (t ++ (X ++ rest))) := by
            rw [← h2]; simp [dumps]
          rw [hd, parseVal_arr_dispatch f0 _ hws hnb, ← h2]
          have hfA : jfuelArr (v :: vs) ≤ f0 := by
            simp only [jfuel] at hf; omega
          rw [(ih f0 (by omega)).2.1 (v :: vs) rest hfA (by simp) hr]
          rfl
      | obj ps =>
        cases ps with
        | nil =>
          have hd : dumps (Json.obj []) ++ rest = '{' :: '}' :: rest := by
            simp [dumps, dumpsObj]
          rw [hd]
          simp only [parseVal]
          rw [skipWs_cons_notWs (by decide)]
          simp [skipWs, isWs]
        | cons p ps' =>
          obtain ⟨k, v⟩ := p
          have hobj : ∃ Y, dumpsObj ((k, v) :: ps') = '"' :: Y := by
            cases ps' with
            | nil => exact ⟨_, rfl⟩
            | cons p2 ps'' => exact ⟨_, rfl⟩
          obtain ⟨Y, hY⟩ := hobj
          have h2 : dumpsObj ((k, v) :: ps') ++ rest = '"' :: (Y ++ rest) := by
            rw [hY]; rfl
          have hd : dumps (Json.obj ((k, v) :: ps')) ++ rest =
              '{' :: ('"' :: (Y ++ rest)) := by
            rw [← h2]; simp [dumps]
          rw [hd, parseVal_obj_dispatch f0 _ (by decide) (by decide), ← h2]
          have hfO : jfuelObj ((k, v) :: ps') ≤ f0 := by
            simp only [jfuel] at hf; omega
          rw [(ih f0 (by omega)).2.2 ((k, v) :: ps') rest hfO (by simp) hr]
          rfl
    · -- parseArrElems on dumped elements
      intro l rest hfA hne hr
      cases l with
      | nil => exact absurd rfl hne
      | cons v vs =>
        obtain ⟨f0, rfl⟩ : ∃ f0, f = f0 + 1 :=
          ⟨f - 1, by simp only [jfuelArr] at hfA; omega⟩
        have hfv : jfuel v ≤ f0 := by simp only [jfuelArr] at hfA; omega
        simp only [parseArrElems]
        cases vs with
        | nil =>
          have harg : dumpsArr [v] ++ rest = dumps v ++ (']' :: rest) := by
            simp [dumpsArr]
          rw [harg]
          rw [(ih f0 (by omega)).1 v (']' :: rest) hfv
            (goodRest_cons (by decide) rest)]
          rw [Option.bind_eq_bind, Option.some_bind]
          rw [skipWs_cons_notWs (by decide)]
          simp
        | cons v2 vs' =>
          have harg : dumpsArr (v :: v2 :: vs') ++ rest =
              dumps v ++ (',' :: ' ' :: (dumpsArr (v2 :: vs') ++ rest)) := by
            simp [dumpsArr]
          rw [harg]
          rw [(ih f0 (by omega)).1 v _ hfv (goodRest_cons (by decide) _)]
          rw [Option.bind_eq_bind, Option.some_bind]
          rw [skipWs_cons_notWs (by decide)]
          have hfvs : jfuelArr (v2 :: vs') ≤ f0 := by
            simp only [jfuelArr] at hfA ⊢; omega
          have hrec : parseArrElems f0 (' ' :: (dumpsArr (v2 :: vs') ++ rest)) =
              some (v2 :: vs', rest) := by
            rw [parseArrElems_ws (by decide)]
            exact (ih f0 (by omega)).2.1 (v2 :: vs') rest hfvs (by simp) hr
          simp [hrec]
    · -- parseObjElems on dumped members
      intro ps rest hfO hne hr
      cases ps with
      | nil => exact absurd rfl hne
      | cons p ps' =>
        obtain ⟨k, v⟩ := p
        obtain ⟨f0, rfl⟩ : ∃ f0, f = f0 + 1 :=
          ⟨f - 1, by simp only [jfuelObj] at hfO; omega⟩
        have hfv : jfuel v ≤ f0 := by simp only [jfuelObj] at hfO; omega
        simp only [parseObjElems]
        cases ps' with
        | nil =>
          have harg : dumpsObj [(k, v)] ++ rest =
              '"' :: (escapeStr k ++ '"' :: ':' :: ' ' :: (dumps v ++ ('}' :: rest))) := by
            simp [dumpsObj]
          rw [harg]
          rw [skipWs_cons_notWs (by decide)]
          have hval : parseVal f0 (' ' :: (dumps v ++ ('}' :: rest))) =
              some (v, '}' :: rest) := by
            rw [parseVal_ws (by decide)]
            exact (ih f0 (by omega)).1 v _ hfv (goodRest_cons (by decide) _)
          simp [parseStrBody_escape, hval, skipWs, isWs]
        | cons p2 ps'' =>
          have harg : dumpsObj ((k, v) :: p2 :: ps'') ++ rest =
              '"' :: (escapeStr k ++ '"' ::
                (':' :: ' ' :: (dumps v ++
                  (',' :: ' ' :: (dumpsObj (p2 :: ps'') ++ rest))))) := by
            simp [dumpsObj]
          rw [harg]
          rw [skipWs_cons_notWs (by decide)]
          have hval : parseVal f0
              (' ' :: (dumps v ++ (',' :: ' ' :: (dumpsObj (p2 :: ps'') ++ rest)))) =
              some (v, ',' :: ' ' :: (dumpsObj (p2 :: ps'') ++ rest)) := by
            rw [parseVal_ws (by decide)]
            exact (ih f0 (by omega)).1 v _ hfv (goodRest_cons (by decide) _)
          have hfps : jfuelObj (p2 :: ps'') ≤ f0 := by
            simp only [jfuelObj] at hfO ⊢; omega
          have hrec : parseObjElems f0 (' ' :: (dumpsObj (p2 :: ps'') ++ rest)) =
              some (p2 :: ps'', rest) := by
            rw [parseObjElems_ws (by decide)]
            exact (ih f0 (by omega)).2.2 (p2 :: ps'') rest hfps (by simp) hr
          simp [parseStrBody_escape, hval, hrec, skipWs, isWs]

/-- The serialisation round trip: parsing a dumped value recovers it
exactly. -/
theorem loads_dumps (v : Json) : loads (dumps v) = some v := by
  unfold loads
  have h := (parse_dumps_mutual (dumps v).length).1 v [] (jfuel_le_length v) goodRest_nil
  rw [List.append_nil] at h
  rw [h]
  simp [skipWs]

/-! ## Key-value cache: model of `zotquery/cache.py` -/

/-- Python exceptions relevant to the modelled code paths. -/
inductive PyErr where
  | keyError : PyErr
  | typeError : PyErr
  | structError : PyErr
  | integrityError : PyErr
  deriving DecidableEq, Repr

/-- State of the cache database file: the `data` table (rows `(key,
value)` with `value` the JSON-serialised record, in insertion order) and
the single `dbinfo.last_updated` timestamp (row `id = 1`, initially
`0.0`). Timestamps are modelled as exact rationals. -/
structure CacheState where
  rows : List (Str × Str)
  lastUpdated : ℚ
  deriving DecidableEq, Repr

namespace Cache

/-- A cache as `SCHEMA` creates it: no data rows, `last_updated = 0`. -/
def init : CacheState := ⟨[], 0⟩

/-- Model of `Cache.get`: `SELECT value FROM data WHERE key=?`, then
`json.loads`. A missing row yields the default (`none`); a value the
parser rejects also yields `none`. -/
def get (st : CacheState) (key : Str) : Option Json :=
  match st.rows.find? (fun kv => kv.1 == key) with
  | none => none
  | some kv => loads kv.2

/-- `INSERT INTO data (key, value) VALUES (?, ?)`: fails on a primary-key
conflict, otherwise appends the row and reports one changed row. -/
def insertRow (rows : List (Str × Str)) (key s : Str) :
    Except PyErr (Nat × List (Str × Str)) :=
  if rows.any (fun kv => kv.1 == key) then .error .integrityError
  else .ok (1, rows ++ [(key, s)])

/-- Model of `Cache.set`: serialise with `json.dumps`, `UPDATE` the row
for `key`; if no row was changed, `INSERT` instead.  Either write that
touches a row sets `last_updated` to the current time (`_set_updated`)
and returns `True`; the trailing `return False` is kept from the source.
`now` stands for `time.time()` at the moment of the call. -/
def set (st : CacheState) (key : Str) (data : Json) (now : ℚ) :
    Except PyErr (Bool × CacheState) :=
  let s := dumps data
  let nUpd := st.rows.countP (fun kv => kv.1 == key)
  let rowsUpd := st.rows.map (fun kv => if kv.1 == key then (kv.1, s) else kv)
  if 0 < nUpd then
    .ok (true, ⟨rowsUpd, now⟩)
  else
    match insertRow rowsUpd key s with
    | .error e => .error e
    | .ok (n, rows2) =>
      if 0 < n then .ok (true, ⟨rows2, now⟩)
      else .ok (false, ⟨rows2, st.lastUpdated⟩)

/-- Model of `Cache.delete`: `DELETE FROM data WHERE key=?`; reports
`True` and advances `last_updated` only when a row was removed. -/
def delete (st : CacheState) (key : Str) (now : ℚ) : Bool × CacheState :=
  let n := st.rows.countP (fun kv => kv.1 == key)
  let rows := st.rows.filter (fun kv => !(kv.1 == key))
  if 0 < n then (true, ⟨rows, now⟩)
  else (false, ⟨rows, st.lastUpdated⟩)

/-- Model of the `Cache.updated` property: `SELECT last_updated FROM
dbinfo WHERE id = 1`. -/
def updated (st : CacheState) : ℚ := st.lastUpdated

end Cache

theorem find?_map_update (rows : List (Str × Str)) (key s : Str) :
    (rows.map (fun kv => if kv.1 == key then (kv.1, s) else kv)).find?
        (fun kv => kv.1 == key) =
      (rows.find? (fun kv => kv.1 == key)).map (fun kv => (kv.1, s)) := by
  have hpf : ((fun kv => kv.1 == key) ∘
      (fun kv : Str × Str => if kv.1 == key then (kv.1, s) else kv)) =
      (fun kv => kv.1 == key) := by
    funext kv; by_cases h : kv.1 = key <;> simp [h]
  rw [List.find?_map, hpf]
  cases hf : rows.find? (fun kv => kv.1 == key) with
  | none => rfl
  | some kv =>
    have hp := List.find?_some hf
    simp only [beq_iff_eq] at hp
    simp [hp]

theorem any_map_update (rows : List (Str × Str)) (key s : Str) :
    (rows.map (fun kv => if kv.1 == key then (kv.1, s) else kv)).any
        (fun kv => kv.1 == key) =
      rows.any (fun kv => kv.1 == key) := by
  have hpf : ((fun kv => kv.1 == key) ∘
      (fun kv : Str × Str => if kv.1 == key then (kv.1, s) else kv)) =
      (fun kv => kv.1 == key) := by
    funext kv; by_cases h : kv.1 = key <;> simp [h]
  rw [List.any_map, hpf]

theorem countP_pos_iff_any (rows : List (Str × Str)) (p : Str × Str → Bool) :
    0 < rows.countP p ↔ rows.any p := by
  rw [List.countP_pos_iff, List.any_eq_true]

theorem map_update_nomatch (rows : List (Str × Str)) (key s : Str)
    (h : rows.any (fun kv => kv.1 == key) = false) :
    rows.map (fun kv => if kv.1 == key then (kv.1, s) else kv) = rows := by
  induction rows with
  | nil => rfl
  | cons kv rest ih =>
    simp only [List.any_cons, Bool.or_eq_false_iff] at h
    have hne : ¬ kv.1 = key := by simpa using h.1
    have ih' := ih h.2
    simp only [beq_iff_eq] at ih'
    simp [hne, ih']

/-- `Cache.set` always takes one of two successful paths: update when the
key is present, insert when it is not. -/
theorem cache_set_eq (st : CacheState) (key : Str) (v : Json) (now : ℚ) :
    Cache.set st key v now =
      if st.rows.any (fun kv => kv.1 == key) then
        .ok (true,
          ⟨st.rows.map (fun kv => if kv.1 == key then (kv.1, dumps v) else kv), now⟩)
      else .ok (true, ⟨st.rows ++ [(key, dumps v)], now⟩) := by
  by_cases h : st.rows.any (fun kv => kv.1 == key)
  · have hc : 0 < st.rows.countP (fun kv => kv.1 == key) :=
      (countP_pos_iff_any _ _).mpr h
    simp only [Cache.set]
    rw [if_pos hc, if_pos h]
  · have hb : st.rows.any (fun kv => kv.1 == key) = false := by
      simp [h]
    have hc : ¬ 0 < st.rows.countP (fun kv => kv.1 == key) := by
      rw [countP_pos_iff_any]
      simp [h]
    simp only [Cache.set, Cache.insertRow]
    rw [if_neg h, if_neg hc, map_update_nomatch st.rows key (dumps v) hb, hb]
    simp

/-- After a successful `set`, `get` parses the freshly dumped value. -/
theorem cache_get_after_set {st : CacheState} {key : Str} {v : Json} {now : ℚ}
    {b : Bool} {st' : CacheState}
    (h : Cache.set st key v now = .ok (b, st')) :
    Cache.get st' key = some v := by
  rw [cache_set_eq] at h
  by_cases hA : st.rows.any (fun kv => kv.1 == key)
  · rw [if_pos hA] at h
    obtain ⟨-, rfl⟩ : b = true ∧ st' = ⟨st.rows.map
        (fun kv => if kv.1 == key then (kv.1, dumps v) else kv), now⟩ := by
      cases h; exact ⟨rfl, rfl⟩
    unfold Cache.get
    rw [find?_map_update]
    have : ∃ a ∈ st.rows, (fun kv => kv.1 == key) a := by
      simpa [List.any_eq_true] using hA
    obtain ⟨kv0, hmem, hp⟩ := this
    have hsome : (st.rows.find? (fun kv => kv.1 == key)).isSome := by
      rw [List.find?_isSome]
      exact ⟨kv0, hmem, hp⟩
    obtain ⟨kv1, hkv1⟩ := Option.isSome_iff_exists.mp hsome
    rw [hkv1]
    simp [loads_dumps]
  · rw [if_neg hA] at h
    obtain ⟨-, rfl⟩ : b = true ∧ st' = ⟨st.rows ++ [(key, dumps v)], now⟩ := by
      cases h; exact ⟨rfl, rfl⟩
    unfold Cache.get
    have hnone : st.rows.find? (fun kv => kv.1 == key) = none := by
      simp only [Bool.not_eq_true] at hA
      rw [List.find?_eq_none]
      exact List.any_eq_false.mp hA
    rw [List.find?_append, hnone]
    simp [loads_dumps]

/-- After a successful `set`, the key is present and `last_updated` is the
call time. -/
theorem cache_set_state {st : CacheState} {key : Str} {v : Json} {now : ℚ}
    {b : Bool} {st' : CacheState}
    (h : Cache.set st key v now = .ok (b, st')) :
    b = true ∧ st'.lastUpdated = now ∧
      st'.rows.any (fun kv => kv.1 == key) = true := by
  rw [cache_set_eq] at h
  by_cases hA : st.rows.any (fun kv => kv.1 == key)
  · rw [if_pos hA] at h
    cases h
    exact ⟨rfl, rfl, by rw [any_map_update]; exact hA⟩
  · rw [if_neg hA] at h
    cases h
    refine ⟨rfl, rfl, ?_⟩
    simp [List.any_append]

/-- A sample item record of the shape the extractor produces, used by the
cache witnesses; the `creators` sequence has two elements whose order
matters. -/
def sampleRecord : Json :=
  Json.obj
    [("key".data, Json.str "C3KEUQJW".data),
     ("library".data, Json.str "0".data),
     ("type".data, Json.str "journalArticle".data),
     ("creators".data, Json.arr
       [Json.obj [("family".data, Json.str "Doe".data),
                  ("given".data, Json.str "Jane".data),
                  ("type".data, Json.str "author".data),
                  ("index".data, Json.num 0)],
        Json.obj [("family".data, Json.str "Roe".data),
                  ("given".data, Json.str "R.".data),
                  ("type".data, Json.str "editor".data),
                  ("index".data, Json.num 1)]]),
     ("data".data, Json.obj [("title".data, Json.str "Test".data),
                             ("date".data, Json.str "2013".data)]),
     ("zot-collections".data, Json.arr []),
     ("zot-tags".data, Json.arr []),
     ("attachments".data, Json.arr []),
     ("notes".data, Json.arr [])]

/-- C3: storing any JSON-serialisable record with `Cache.set` and reading
it back with `Cache.get` yields exactly the original value.  `Json`
equality is field-for-field equality, and `Json.arr` keeps element order,
so in particular the order of the `creators` sequence survives the round
trip. -/
theorem claim_C3_cache_roundtrip (st : CacheState) (key : Str) (v : Json)
    (now : ℚ) (b : Bool) (st' : CacheState)
    (h : Cache.set st key v now = .ok (b, st')) :
    Cache.get st' key = some v :=
  cache_get_after_set h

/-- Witness for C3: a concrete extractor-shaped record round-trips through
an initially empty cache. -/
theorem claim_C3_cache_roundtrip_witness :
    Cache.get ⟨[("C3KEUQJW".data, dumps sampleRecord)], 5⟩ "C3KEUQJW".data =
      some sampleRecord :=
  claim_C3_cache_roundtrip Cache.init "C3KEUQJW".data sampleRecord 5 true _ rfl

/-- C4: setting the same key to the same value twice succeeds both times
(`True` twice), leaves `get` unchanged (still the stored value), and each
call moves `updated` to its own call time, so with strictly increasing
clock readings the timestamp strictly advances on both calls even though
the second write stores identical bytes. -/
theorem claim_C4_set_twice (st : CacheState) (key : Str) (v : Json)
    (now1 now2 : ℚ) (b1 b2 : Bool) (st1 st2 : CacheState)
    (ht1 : Cache.updated st < now1) (ht2 : now1 < now2)
    (h1 : Cache.set st key v now1 = .ok (b1, st1))
    (h2 : Cache.set st1 key v now2 = .ok (b2, st2)) :
    b1 = true ∧ b2 = true ∧
    Cache.get st1 key = some v ∧ Cache.get st2 key = some v ∧
    Cache.updated st < Cache.updated st1 ∧
    Cache.updated st1 < Cache.updated st2 := by
  obtain ⟨hb1, hu1, -⟩ := cache_set_state h1
  obtain ⟨hb2, hu2, -⟩ := cache_set_state h2
  refine ⟨hb1, hb2, cache_get_after_set h1, cache_get_after_set h2, ?_, ?_⟩
  · show st.lastUpdated < st1.lastUpdated
    rw [hu1]; exact ht1
  · show st1.lastUpdated < st2.lastUpdated
    rw [hu1, hu2]; exact ht2

/-- Witness for C4 at a concrete key, value and clock readings. -/
theorem claim_C4_set_twice_witness :
    true = true ∧ true = true ∧
    Cache.get ⟨[(['k'], dumps (Json.num 2))], 1⟩ ['k'] = some (Json.num 2) ∧
    Cache.get ⟨[(['k'], dumps (Json.num 2))], 2⟩ ['k'] = some (Json.num 2) ∧
    Cache.updated Cache.init < Cache.updated ⟨[(['k'], dumps (Json.num 2))], 1⟩ ∧
    Cache.updated ⟨[(['k'], dumps (Json.num 2))], 1⟩ <
      Cache.updated ⟨[(['k'], dumps (Json.num 2))], 2⟩ :=
  claim_C4_set_twice Cache.init ['k'] (Json.num 2) 1 2 true true _ _
    (by norm_num [Cache.updated, Cache.init]) (by norm_num) rfl rfl

/-- C9: `Cache.set` always returns `True`: when the `UPDATE` touches no
row the key is absent, so the fallback `INSERT` cannot hit a primary-key
conflict and inserts exactly one row; the trailing `return False` branch
is unreachable. -/
theorem claim_C9_set_returns_true (st : CacheState) (key : Str) (v : Json)
    (now : ℚ) :
    ∃ st', Cache.set st key v now = .ok (true, st') := by
  rw [cache_set_eq]
  by_cases h : st.rows.any (fun kv => kv.1 == key)
  · rw [if_pos h]; exact ⟨_, rfl⟩
  · rw [if_neg h]; exact ⟨_, rfl⟩

/-- C10: deleting an absent key returns `False` and leaves the whole
cache state unchanged — every stored row is untouched and `last_updated`
is not advanced, because `_set_updated` only runs when a row was
removed. -/
theorem claim_C10_delete_absent (st : CacheState) (key : Str) (now : ℚ)
    (h : st.rows.any (fun kv => kv.1 == key) = false) :
    Cache.delete st key now = (false, st) := by
  have hc : ¬ 0 < st.rows.countP (fun kv => kv.1 == key) := by
    rw [countP_pos_iff_any]; simp [h]
  have hfil : st.rows.filter (fun kv => !(kv.1 == key)) = st.rows :=
    List.filter_eq_self.mpr (fun kv hmem => by
      have := List.any_eq_false.mp h kv hmem
      simpa using this)
  simp only [Cache.delete]
  rw [if_neg hc, hfil]

/-- Witness for C10: deleting a key that is not among the stored rows. -/
theorem claim_C10_delete_absent_witness :
    Cache.delete ⟨[(['a'], ['1'])], 3⟩ ['b'] 7 = (false, ⟨[(['a'], ['1'])], 3⟩) :=
  claim_C10_delete_absent ⟨[(['a'], ['1'])], 3⟩ ['b'] 7 (by decide)

/-! ## Freshness check: model of `ZotqueryBackend.is_fresh` -/

/-- Model of `is_fresh`: `zotero_mod`, `clone_mod` are the filesystem
modification times of the original and cloned sqlite files, `cache_mod`
is `Cache.updated`.  Returns `(update, spot)`: `update = true` means a
resync is needed and `spot` names the stale stage (`"Clone"` is the
mirror/clone stage, `"Cache"` the cache stage); `(false, none)` means
fresh. -/
def is_fresh (zotero_mod clone_mod cache_mod : ℚ) : Bool × Option Str :=
  if zotero_mod > clone_mod then (true, some "Clone".data)
  else if cache_mod - clone_mod > 10 then (true, some "Cache".data)
  else (false, none)

/-- C2: with `T_src ≤ T_mirror` and `|T_cache - T_mirror| ≤ 10` the check
reports fresh with no stale stage, and with `T_src > T_mirror` it reports
stale at the mirror/clone stage regardless of the cache timestamp. -/
theorem claim_C2_is_fresh (zotero_mod clone_mod cache_mod : ℚ) :
    (zotero_mod ≤ clone_mod → |cache_mod - clone_mod| ≤ 10 →
      is_fresh zotero_mod clone_mod cache_mod = (false, none)) ∧
    (zotero_mod > clone_mod →
      is_fresh zotero_mod clone_mod cache_mod = (true, some "Clone".data)) := by
  constructor
  · intro h1 h2
    unfold is_fresh
    rw [if_neg (by exact not_lt.mpr h1)]
    rw [if_neg (by
      have := (abs_le.mp h2).2
      exact not_lt.mpr this)]
  · intro h
    unfold is_fresh
    rw [if_pos h]

/-- Witness for C2 on concrete timestamps: fresh at `(1, 2, 5)`, stale at
the clone stage at `(3, 2, 100)`. -/
theorem claim_C2_is_fresh_witness :
    is_fresh 1 2 5 = (false, none) ∧
      is_fresh 3 2 100 = (true, some "Clone".data) :=
  ⟨(claim_C2_is_fresh 1 2 5).1 (by norm_num) (by norm_num),
   (claim_C2_is_fresh 3 2 100).2 (by norm_num)⟩

/-! ## Ranking function: model of `ZotqueryBackend.make_rank_func` -/

/-- `struct.unpack('I', ...)` applied to each 4-byte slice of the buffer
(native byte order, modelled little-endian; the grouping into 4-byte
slices is byte-order independent).  A trailing slice of fewer than 4
bytes makes `struct.unpack` raise `struct.error`. -/
def bytesToWords : List Nat → Except PyErr (List Nat)
  | [] => .ok []
  | b0 :: b1 :: b2 :: b3 :: rest =>
    (bytesToWords rest).map
      (fun ws => (b0 + 256 * b1 + 65536 * b2 + 16777216 * b3) :: ws)
  | _ => .error .structError

/-- `zip(it, it, it)` over a single iterator: consecutive triples, any
leftover of fewer than three values silently dropped. -/
def triples : List Nat → List (Nat × Nat × Nat)
  | a :: b :: c :: rest => (a, b, c) :: triples rest
  | _ => []

/-- Contribution of one `(matches_in_row, matches_in_all_rows,
total_rows)` triple paired with its weight: `x[0] * w / x[1]`, where a
triple with `x[1] = 0` is skipped by the `if x[1]` filter (contributing
exactly 0). -/
def scoreTriple (xw : (Nat × Nat × Nat) × ℚ) : ℚ :=
  if xw.1.2.1 = 0 then 0 else (xw.1.1 : ℚ) * xw.2 / (xw.1.2.1 : ℚ)

/-- Model of the function returned by `make_rank_func(weights)`: unpack
the buffer into 32-bit words, skip the two header words, group the rest
into consecutive triples, pair the triples with the weights positionally
(`zip` stops at the shorter sequence), and sum the contributions.
Weights (Python floats) are modelled as exact rationals. -/
def make_rank_func (weights : List ℚ) (matchinfo : List Nat) : Except PyErr ℚ :=
  (bytesToWords matchinfo).map (fun ws =>
    (((triples (ws.drop 2)).zip weights).map scoreTriple).sum)

/-- The ranking algorithm as the spec words it (§4.6): each triple is
paired with the weight of its column, the column weight cycling per
phrase, so every phrase's triples are scored.  Stated only for
comparison with `make_rank_func`. -/
def rank_spec_cycled (weights : List ℚ) (matchinfo : List Nat) : Except PyErr ℚ :=
  (bytesToWords matchinfo).map (fun ws =>
    (((triples (ws.drop 2)).enum.map
      (fun ix => scoreTriple (ix.2, weights.getD (ix.1 % weights.length) 0))).sum))

/-- Pack 32-bit words into the byte buffer `matchinfo` hands over. -/
def packWords (ws : List Nat) : List Nat :=
  ws.flatMap (fun w => [w % 256, w / 256 % 256, w / 65536 % 256, w / 16777216 % 256])

theorem bytesToWords_packWords (ws : List Nat) (h : ∀ w ∈ ws, w < 4294967296) :
    bytesToWords (packWords ws) = .ok ws := by
  induction ws with
  | nil => rfl
  | cons w rest ih =>
    have hw : w < 4294967296 := h w (by simp)
    have hrest := ih (fun x hx => h x (by simp [hx]))
    show bytesToWords
        (w % 256 :: w / 256 % 256 :: w / 65536 % 256 :: w / 16777216 % 256 ::
          packWords rest) = _
    rw [bytesToWords, hrest]
    simp only [Except.map]
    congr 2
    omega

theorem triples_flat (stats : List (Nat × Nat × Nat)) :
    triples (stats.flatMap (fun t => [t.1, t.2.1, t.2.2])) = stats := by
  induction stats with
  | nil => rfl
  | cons t rest ih =>
    obtain ⟨a, b, c⟩ := t
    show triples (a :: b :: c :: rest.flatMap (fun t => [t.1, t.2.1, t.2.2])) =
      (a, b, c) :: rest
    rw [triples, ih]

theorem zip_eq_zip_take {α β : Type} (l : List α) (ws : List β) :
    l.zip ws = (l.take ws.length).zip ws := by
  induction l generalizing ws with
  | nil => simp
  | cons x xs ih =>
    cases ws with
    | nil => simp
    | cons w ws' => simp [List.zip_cons_cons, ih ws']

/-- Counterexample to C1: the weights do not cycle.  For a buffer with 2
phrases and 1 column (header `2, 1`, triples `(3,1,0)` and `(5,1,0)`,
weight vector `[1]`), `zip` stops after the single weight, so the code
scores only the first phrase's triple (3/1 = 3), while the claimed
cycling semantics would also score the second phrase (3 + 5 = 8). -/
theorem claim_C1_counterexample :
    make_rank_func [1] (packWords [2, 1, 3, 1, 0, 5, 1, 0]) = .ok 3 ∧
    rank_spec_cycled [1] (packWords [2, 1, 3, 1, 0, 5, 1, 0]) = .ok 8 ∧
    make_rank_func [1] (packWords [2, 1, 3, 1, 0, 5, 1, 0]) ≠
      rank_spec_cycled [1] (packWords [2, 1, 3, 1, 0, 5, 1, 0]) := by
  refine ⟨?_, ?_, ?_⟩
  · norm_num [make_rank_func, packWords, bytesToWords, triples, scoreTriple, Except.map]
  · norm_num [rank_spec_cycled, packWords, bytesToWords, triples, scoreTriple, Except.map,
      List.enum, List.enumFrom, List.getD]
  · norm_num [make_rank_func, rank_spec_cycled, packWords, bytesToWords, triples,
      scoreTriple, Except.map, List.enum, List.enumFrom, List.getD]

/-- C1 amended: the ranking function skips the two header words, groups
the rest into consecutive `(matches_in_row, matches_in_all_rows,
total_rows)` triples and pairs them with the weights positionally — the
weights do **not** cycle, so with `p ≥ 1` phrases and `c` columns only
the first `c` triples (phrase 0) contribute; each scored triple
contributes `matches_in_row * weight / matches_in_all_rows`, and a
triple with `matches_in_all_rows = 0` contributes exactly 0 and never
raises a division error. -/
theorem claim_C1_rank_first_phrase (weights : List ℚ) (p c : Nat)
    (stats : List (Nat × Nat × Nat))
    (hc : weights.length = c) (_hp : 1 ≤ p) (_hlen : stats.length = p * c)
    (hb : ∀ w ∈ p :: c :: stats.flatMap (fun t => [t.1, t.2.1, t.2.2]),
      w < 4294967296) :
    make_rank_func weights
        (packWords (p :: c :: stats.flatMap (fun t => [t.1, t.2.1, t.2.2]))) =
      .ok ((((stats.take c).zip weights).map scoreTriple).sum) := by
  unfold make_rank_func
  rw [bytesToWords_packWords _ hb]
  simp only [Except.map, List.drop_succ_cons, List.drop_zero]
  rw [triples_flat, zip_eq_zip_take, hc]

/-- Witness for C1 (amended) at 2 phrases and 2 columns: only the first
two of the four triples are paired with the two weights. -/
theorem claim_C1_rank_first_phrase_witness :
    make_rank_func [2, 3]
        (packWords (2 :: 2 ::
          ([(1, 2, 3), (4, 5, 6), (7, 8, 9), (10, 11, 12)] :
              List (Nat × Nat × Nat)).flatMap
            (fun t => [t.1, t.2.1, t.2.2]))) =
      .ok (((([((1 : Nat), (2 : Nat), (3 : Nat)), (4, 5, 6), (7, 8, 9),
          (10, 11, 12)].take 2).zip [(2 : ℚ), 3]).map scoreTriple).sum) :=
  claim_C1_rank_first_phrase [2, 3] 2 2 [(1, 2, 3), (4, 5, 6), (7, 8, 9), (10, 11, 12)]
    rfl (by norm_num) rfl (by decide)

/-- `bytesToWords` succeeds exactly on buffers whose byte length is a
multiple of four. -/
theorem bytesToWords_total : ∀ n (bytes : List Nat), bytes.length ≤ n →
    (bytes.length % 4 = 0 → ∃ ws, bytesToWords bytes = .ok ws) ∧
    (bytes.length % 4 ≠ 0 → bytesToWords bytes = .error .structError) := by
  intro n
  induction n with
  | zero =>
    intro bytes h
    have hb : bytes = [] := List.eq_nil_of_length_eq_zero (by omega)
    subst hb
    exact ⟨fun _ => ⟨[], rfl⟩, fun hne => absurd rfl hne⟩
  | succ n ih =>
    intro bytes h
    match bytes with
    | [] => exact ⟨fun _ => ⟨[], rfl⟩, fun hne => absurd rfl hne⟩
    | [b0] => exact ⟨fun h0 => by simp at h0, fun _ => rfl⟩
    | [b0, b1] => exact ⟨fun h0 => by simp at h0, fun _ => rfl⟩
    | [b0, b1, b2] => exact ⟨fun h0 => by simp at h0, fun _ => rfl⟩
    | b0 :: b1 :: b2 :: b3 :: rest =>
      have hlen : rest.length ≤ n := by simp at h; omega
      have hmod : (b0 :: b1 :: b2 :: b3 :: rest).length % 4 = rest.length % 4 := by
        simp; omega
      constructor
      · intro h0
        obtain ⟨ws, hws⟩ := (ih rest hlen).1 (by omega)
        exact ⟨_, by rw [bytesToWords, hws]; rfl⟩
      · intro h0
        have := (ih rest hlen).2 (by omega)
        rw [bytesToWords, this]
        rfl

/-- Counterexample to C8: a buffer whose header declares 2 phrases and 2
columns (4 triples expected) but carries only one triple is scored
without any error — the code silently truncates instead of failing
fast. -/
theorem claim_C8_counterexample :
    make_rank_func [1, 1] (packWords [2, 2, 3, 1, 0]) = .ok 3 := by
  norm_num [make_rank_func, packWords, bytesToWords, triples, scoreTriple, Except.map]

/-- C8 amended: the ranking function fails fast only when the byte length
of the buffer is not a multiple of four (`struct.unpack` raises
`struct.error` on the short trailing slice); any buffer whose byte
length is a multiple of four is scored successfully, silently dropping
words that do not fill a complete triple and triples beyond the weight
vector, however inconsistent the counts are with the header. -/
theorem claim_C8_size_handling (weights : List ℚ) (bytes : List Nat) :
    (bytes.length % 4 = 0 → ∃ score, make_rank_func weights bytes = .ok score) ∧
    (bytes.length % 4 ≠ 0 →
      make_rank_func weights bytes = .error .structError) := by
  constructor
  · intro h0
    obtain ⟨ws, hws⟩ := (bytesToWords_total bytes.length bytes le_rfl).1 h0
    exact ⟨_, by unfold make_rank_func; rw [hws]; rfl⟩
  · intro h0
    have := (bytesToWords_total bytes.length bytes le_rfl).2 h0
    unfold make_rank_func
    rw [this]
    rfl

/-- Witness for C8 (amended): a 12-byte buffer is scored, a 6-byte buffer
raises. -/
theorem claim_C8_size_handling_witness :
    (∃ score, make_rank_func [1] [0, 0, 0, 0, 0, 0, 0, 0, 7, 0, 0, 0] = .ok score) ∧
    make_rank_func [1] [0, 0, 0, 0, 0, 0] = .error .structError :=
  ⟨(claim_C8_size_handling [1] [0, 0, 0, 0, 0, 0, 0, 0, 7, 0, 0, 0]).1 (by norm_num),
   (claim_C8_size_handling [1] [0, 0, 0, 0, 0, 0]).2 (by norm_num)⟩

/-! ## Column projection: model of `ZotqueryBackend.get_datum` -/

/-- The three shapes of `FILTERS_MAP` entries that `get_datum` dispatches
on at run time with `isinstance` checks: a top-level field name, one
`[key, subkey]` path, or a list of candidate `[key, subkey]` paths. -/
inductive ValMap where
  | direct : Str → ValMap
  | pair : Str → Str → ValMap
  | pairs : List (Str × Str) → ValMap

/-- Python subscripting `j[key]` with a string key: a dict yields the
entry or raises `KeyError`; any non-dict raises `TypeError`. -/
def jLookup (j : Json) (key : Str) : Except PyErr Json :=
  match j with
  | .obj fields =>
    match fields.find? (fun kv => kv.1 == key) with
    | some kv => .ok kv.2
    | none => .error .keyError
  | _ => .error .typeError

/-- `item[key][sub]`: both subscript steps, errors propagating. -/
def jLookup2 (item : Json) (key sub : Str) : Except PyErr Json := do
  let inner ← jLookup item key
  jLookup inner sub

/-- `' '.join(...)` over a list of values that must all be strings. -/
def joinWithSpaces : List Str → Str
  | [] => []
  | [s] => s
  | s :: rest => s ++ ' ' :: joinWithSpaces rest

/-- A value used as a join element must be a string, else `TypeError`. -/
def jStr : Json → Except PyErr Str
  | .str s => .ok s
  | _ => .error .typeError

/-- `' '.join(result)` over the collected values. -/
def joinStrs (l : List Json) : Except PyErr Str := do
  let ss ← l.mapM jStr
  .ok (joinWithSpaces ss)

/-- The `for pair in val_map` loop of `get_datum`'s candidate-list branch:
`check` is overwritten on every successful `item[key][val]` lookup, a
`KeyError` is passed over, and any other error propagates. -/
def getDatumLoop (item : Json) : List (Str × Str) → Option Json →
    Except PyErr (Option Json)
  | [], check => .ok check
  | (k, v) :: rest, check =>
    match jLookup2 item k v with
    | .ok x => getDatumLoop item rest (some x)
    | .error .keyError => getDatumLoop item rest check
    | .error e => .error e

/-- Model of `get_datum`.  The `.direct` branch takes the top-level value
and wraps a string as a singleton; the `.pair` branch tries
`item[key][val]`, falling back to a per-element lookup when `item[key]`
is a list and to `[]` on `KeyError`; the `.pairs` branch runs the
candidate loop and space-joins the surviving `check` (a non-empty
one-element list is always truthy, so `check if check else []` yields
`[x]` or `[]`). -/
def get_datum (item : Json) (val_map : ValMap) : Except PyErr Str :=
  match val_map with
  | .direct key => do
    let r ← jLookup item key
    match r with
    | .str s => joinStrs [.str s]
    | .arr l => joinStrs l
    | _ => .error .typeError
  | .pair key sub =>
    (match jLookup item key with
    | .error .keyError => .ok []
    | .error e => .error e
    | .ok inner =>
      match inner with
      | .obj _ =>
        match jLookup inner sub with
        | .ok x => .ok [x]
        | .error .keyError => .ok []
        | .error e => .error e
      | .arr l => l.mapM (fun x => jLookup x sub)
      | _ => .error .typeError) >>= joinStrs
  | .pairs cands => do
    let check ← getDatumLoop item cands none
    match check with
    | some x => joinStrs [x]
    | none => .ok []

/-- The candidate-list semantics as the spec words it: the first pair
whose two-level lookup succeeds wins.  Stated only for comparison with
`get_datum`. -/
def get_datum_spec_first (item : Json) : List (Str × Str) → Except PyErr Str
  | [] => .ok []
  | (k, v) :: rest =>
    match jLookup2 item k v with
    | .ok x => joinStrs [x]
    | .error .keyError => get_datum_spec_first item rest
    | .error e => .error e

instance {ε α : Type} [DecidableEq ε] [DecidableEq α] : DecidableEq (Except ε α) :=
  fun x y =>
    match x, y with
    | .ok a, .ok b =>
      if h : a = b then .isTrue (by rw [h])
      else .isFalse (by intro hx; cases hx; exact h rfl)
    | .error a, .error b =>
      if h : a = b then .isTrue (by rw [h])
      else .isFalse (by intro hx; cases hx; exact h rfl)
    | .ok _, .error _ => .isFalse (by intro hx; cases hx)
    | .error _, .ok _ => .isFalse (by intro hx; cases hx)

theorem jLookup_error_cases {j : Json} {key : Str} {e : PyErr}
    (h : jLookup j key = .error e) : e = .keyError ∨ e = .typeError := by
  cases j with
  | obj fields =>
    simp only [jLookup] at h
    cases hf : fields.find? (fun kv => kv.1 == key) with
    | some kv => rw [hf] at h; cases h
    | none => rw [hf] at h; cases h; exact Or.inl rfl
  | null => cases h; exact Or.inr rfl
  | bool b => cases h; exact Or.inr rfl
  | num i => cases h; exact Or.inr rfl
  | str s => cases h; exact Or.inr rfl
  | arr l => cases h; exact Or.inr rfl

theorem jLookup2_error_cases {item : Json} {k v : Str} {e : PyErr}
    (h : jLookup2 item k v = .error e) : e = .keyError ∨ e = .typeError := by
  unfold jLookup2 at h
  cases h1 : jLookup item k with
  | error e1 =>
    rw [h1] at h
    have h' : (Except.error e1 : Except PyErr Json) = .error e := h
    cases h'
    exact jLookup_error_cases h1
  | ok inner =>
    rw [h1] at h
    have h' : jLookup inner v = .error e := h
    exact jLookup_error_cases h'

/-- The value the candidate loop ends with: the last pair whose two-level
lookup succeeds, if any. -/
def lastSuccessful (item : Json) : List (Str × Str) → Option Json
  | [] => none
  | (k, v) :: rest =>
    match lastSuccessful item rest with
    | some y => some y
    | none => (jLookup2 item k v).toOption

theorem getDatumLoop_lastSuccessful (item : Json) (cands : List (Str × Str))
    (check : Option Json)
    (h : ∀ kv ∈ cands, jLookup2 item kv.1 kv.2 ≠ .error .typeError) :
    getDatumLoop item cands check =
      .ok (match lastSuccessful item cands with
        | some y => some y
        | none => check) := by
  induction cands generalizing check with
  | nil => rfl
  | cons kv rest ih =>
    obtain ⟨k, v⟩ := kv
    have hrest : ∀ kv ∈ rest, jLookup2 item kv.1 kv.2 ≠ .error .typeError :=
      fun kv hm => h kv (by simp [hm])
    cases hkv : jLookup2 item k v with
    | ok x =>
      have hstep : getDatumLoop item ((k, v) :: rest) check =
          getDatumLoop item rest (some x) := by
        simp only [getDatumLoop, hkv]
      have hlast : lastSuccessful item ((k, v) :: rest) =
          match lastSuccessful item rest with
          | some y => some y
          | none => some x := by
        simp only [lastSuccessful, hkv, Except.toOption]
      rw [hstep, ih (some x) hrest, hlast]
      cases lastSuccessful item rest <;> rfl
    | error e =>
      have he : e = .keyError := by
        rcases jLookup2_error_cases hkv with h1 | h1
        · exact h1
        · exact absurd (h1 ▸ hkv) (h (k, v) (by simp))
      subst he
      have hstep : getDatumLoop item ((k, v) :: rest) check =
          getDatumLoop item rest check := by
        simp only [getDatumLoop, hkv]
      have hlast : lastSuccessful item ((k, v) :: rest) =
          match lastSuccessful item rest with
          | some y => some y
          | none => none := by
        simp only [lastSuccessful, hkv, Except.toOption]
      rw [hstep, ih check hrest, hlast]
      cases lastSuccessful item rest <;> rfl

/-- Counterexample to C6: with both candidate paths present, the code
returns the value of the *last* successful pair, not the first.  Item
`{"a": {"x": "1"}, "b": {"x": "2"}}` with candidates
`[["a","x"], ["b","x"]]` projects to `"2"`, while the spec's
first-success semantics gives `"1"`. -/
theorem claim_C6_counterexample :
    get_datum
        (Json.obj [(['a'], Json.obj [(['x'], Json.str ['1'])]),
                   (['b'], Json.obj [(['x'], Json.str ['2'])])])
        (ValMap.pairs [(['a'], ['x']), (['b'], ['x'])]) = .ok ['2'] ∧
    get_datum_spec_first
        (Json.obj [(['a'], Json.obj [(['x'], Json.str ['1'])]),
                   (['b'], Json.obj [(['x'], Json.str ['2'])])])
        [(['a'], ['x']), (['b'], ['x'])] = .ok ['1'] ∧
    (Except.ok ['2'] : Except PyErr Str) ≠ .ok ['1'] := by
  refine ⟨by decide, by decide, by decide⟩

/-- C6 amended: `get_datum` evaluates every candidate `(key, subkey)`
pair in order, overwriting `check` on each success, so the value of the
**last** pair whose lookup succeeds wins (space-joined); if no pair
succeeds the result is the empty string.  (A candidate whose first-level
value is not a dict raises `TypeError`, which propagates; the statement
assumes no candidate does.) -/
theorem claim_C6_get_datum_last_wins (item : Json) (cands : List (Str × Str))
    (h : ∀ kv ∈ cands, jLookup2 item kv.1 kv.2 ≠ .error .typeError) :
    get_datum item (.pairs cands) =
      match lastSuccessful item cands with
      | some x => joinStrs [x]
      | none => .ok [] := by
  show (do
    let check ← getDatumLoop item cands none
    match check with
    | some x => joinStrs [x]
    | none => .ok []) = _
  rw [getDatumLoop_lastSuccessful item cands none h]
  cases lastSuccessful item cands with
  | some x => rfl
  | none => rfl

/-- Witness for C6 (amended) at the two-candidate item above: the last
success, `"2"`, wins. -/
theorem claim_C6_get_datum_last_wins_witness :
    get_datum
        (Json.obj [(['a'], Json.obj [(['x'], Json.str ['1'])]),
                   (['b'], Json.obj [(['x'], Json.str ['2'])])])
        (ValMap.pairs [(['a'], ['x']), (['b'], ['x'])]) =
      match lastSuccessful
          (Json.obj [(['a'], Json.obj [(['x'], Json.str ['1'])]),
                     (['b'], Json.obj [(['x'], Json.str ['2'])])])
          [(['a'], ['x']), (['b'], ['x'])] with
      | some x => joinStrs [x]
      | none => .ok [] :=
  claim_C6_get_datum_last_wins _ _ (by
    intro kv hkv
    fin_cases hkv <;> exact fun hx => nomatch hx)

/-! ## Metadata extraction: model of `ZotqueryBackend._item_metadata` -/

/-- One row of the metadata query: `itemData.fieldID, itemData.valueID,
fields.fieldName, itemDataValues.value` (a join result; Zotero's schema
makes the joined columns non-null for the rows the claims quantify
over). -/
structure MetaRow where
  fieldID : Int
  valueID : Int
  fieldName : Str
  value : Str

/-- Model of `_item_metadata`'s row loop: the `OrderedDict` is an ordered
association list; a field name already present is skipped (`if
field_name not in item_meta`), and on first insertion the `date` field's
value is truncated to its first four characters (`value_name[0:4]`)
while every other field keeps its value. -/
def item_metadata (rows : List MetaRow) : List (Str × Str) :=
  rows.foldl
    (fun acc r =>
      if acc.any (fun kv => kv.1 == r.fieldName) then acc
      else acc ++
        [(r.fieldName,
          if r.fieldName == "date".data then r.value.take 4 else r.value)])
    []

/-- Lookup in the ordered dict built by `item_metadata`. -/
def metaLookup (m : List (Str × Str)) (f : Str) : Option Str :=
  (m.find? (fun kv => kv.1 == f)).map (fun kv => kv.2)

theorem metaLookup_append (m₁ m₂ : List (Str × Str)) (f : Str) :
    metaLookup (m₁ ++ m₂) f =
      match metaLookup m₁ f with
      | some v => some v
      | none => metaLookup m₂ f := by
  unfold metaLookup
  rw [List.find?_append]
  cases m₁.find? (fun kv => kv.1 == f) <;> rfl

theorem metaLookup_none_of_not_any {m : List (Str × Str)} {f : Str}
    (h : m.any (fun kv => kv.1 == f) = false) : metaLookup m f = none := by
  unfold metaLookup
  rw [List.find?_eq_none.mpr (List.any_eq_false.mp h)]
  rfl

theorem item_metadata_fold (rows : List MetaRow) (acc : List (Str × Str))
    (f : Str) :
    metaLookup (rows.foldl
      (fun acc r =>
        if acc.any (fun kv => kv.1 == r.fieldName) then acc
        else acc ++
          [(r.fieldName,
            if r.fieldName == "date".data then r.value.take 4 else r.value)])
      acc) f =
      match metaLookup acc f with
      | some v => some v
      | none =>
        (rows.find? (fun r => r.fieldName == f)).map
          (fun r => if f == "date".data then r.value.take 4 else r.value) := by
  induction rows generalizing acc with
  | nil => cases h : metaLookup acc f <;> simp [h]
  | cons r rest ih =>
    rw [List.foldl_cons]
    by_cases hin : acc.any (fun kv => kv.1 == r.fieldName)
    · rw [if_pos hin, ih acc]
      by_cases hf : r.fieldName = f
      · subst hf
        obtain ⟨kv, hkv⟩ : ∃ kv, acc.find? (fun kv => kv.1 == r.fieldName) = some kv := by
          have hex : ∃ x ∈ acc, (fun kv => kv.1 == r.fieldName) x := by
            simpa [List.any_eq_true] using hin
          exact Option.isSome_iff_exists.mp (List.find?_isSome.mpr hex)
        have hlk : metaLookup acc r.fieldName = some kv.2 := by
          unfold metaLookup; rw [hkv]; rfl
        rw [hlk, List.find?_cons_of_pos _ (by simp)]
      · rw [List.find?_cons_of_neg _ (by simp [hf])]
    · rw [if_neg hin, ih]
      have hfalse : acc.any (fun kv => kv.1 == r.fieldName) = false := by
        simp only [Bool.not_eq_true] at hin; exact hin
      by_cases hf : r.fieldName = f
      · subst hf
        have hacc : metaLookup acc r.fieldName = none :=
          metaLookup_none_of_not_any hfalse
        have hone : metaLookup
            [(r.fieldName,
              if r.fieldName == "date".data then r.value.take 4 else r.value)]
            r.fieldName =
            some (if r.fieldName == "date".data then r.value.take 4 else r.value) := by
          unfold metaLookup
          rw [List.find?_cons_of_pos _ (by simp)]
          rfl
        rw [metaLookup_append, hacc, hone, List.find?_cons_of_pos _ (by simp)]
        rfl
      · have hone : metaLookup
            [(r.fieldName,
              if r.fieldName == "date".data then r.value.take 4 else r.value)] f =
            none := by
          unfold metaLookup
          rw [List.find?_cons_of_neg _ (by simp [hf])]
          rfl
        have hacc2 : metaLookup
            (acc ++ [(r.fieldName,
              if r.fieldName == "date".data then r.value.take 4 else r.value)]) f =
            metaLookup acc f := by
          rw [metaLookup_append, hone]
          cases metaLookup acc f <;> rfl
        rw [hacc2, List.find?_cons_of_neg _ (by simp [hf])]

/-- C5: for every item's metadata rows, each field name keeps only the
value of the first row that carries it (later duplicates are ignored),
the stored `date` value is the first four characters of the first-seen
date (`value[0:4]`), which truncates values longer than four characters
to exactly their first four and leaves values of length at most four
unchanged. -/
theorem claim_C5_item_metadata (rows : List MetaRow) :
    (∀ f, metaLookup (item_metadata rows) f =
      (rows.find? (fun r => r.fieldName == f)).map
        (fun r => if f == "date".data then r.value.take 4 else r.value)) ∧
    (∀ r', rows.find? (fun r => r.fieldName == "date".data) = some r' →
      (4 < r'.value.length →
        metaLookup (item_metadata rows) "date".data = some (r'.value.take 4) ∧
        (r'.value.take 4).length = 4 ∧
        r'.value.take 4 ++ r'.value.drop 4 = r'.value) ∧
      (r'.value.length ≤ 4 →
        metaLookup (item_metadata rows) "date".data = some r'.value)) := by
  have hmain : ∀ f, metaLookup (item_metadata rows) f =
      (rows.find? (fun r => r.fieldName == f)).map
        (fun r => if f == "date".data then r.value.take 4 else r.value) := by
    intro f
    unfold item_metadata
    rw [item_metadata_fold rows [] f]
    rfl
  refine ⟨hmain, ?_⟩
  intro r' hfind
  have hdate : metaLookup (item_metadata rows) "date".data =
      some (r'.value.take 4) := by
    rw [hmain "date".data, hfind]
    simp
  constructor
  · intro hlen
    refine ⟨hdate, ?_, List.take_append_drop 4 r'.value⟩
    rw [List.length_take]
    omega
  · intro hlen
    rw [hdate, List.take_of_length_le hlen]

/-- Witness for C5: a date of length 10 is truncated to its first four
characters, a later duplicate `date` row is ignored. -/
theorem claim_C5_item_metadata_witness :
    metaLookup (item_metadata
        [⟨1, 1, "date".data, "2013-05-01".data⟩,
         ⟨2, 2, "title".data, "Test".data⟩,
         ⟨3, 3, "date".data, "1999".data⟩]) "date".data =
      some ("2013-05-01".data.take 4) ∧
    ("2013-05-01".data.take 4).length = 4 ∧
    "2013-05-01".data.take 4 ++ "2013-05-01".data.drop 4 = "2013-05-01".data :=
  ((claim_C5_item_metadata
      [⟨1, 1, "date".data, "2013-05-01".data⟩,
       ⟨2, 2, "title".data, "Test".data⟩,
       ⟨3, 3, "date".data, "1999".data⟩]).2
    ⟨1, 1, "date".data, "2013-05-01".data⟩ rfl).1 (by decide)

/-! ## Item extraction: model of `ZotqueryBackend.get_all_items` -/

/-- A row of the `items` table as selected by `get_all_items`
(`key, itemID, itemTypeID, libraryID`, plus `dateAdded` for the
`ORDER BY`). -/
structure ItemRow where
  key : Str
  itemID : Int
  itemTypeID : Int
  libraryID : Option Int
  dateAdded : Int

/-- `itemCreators` rows. -/
structure CreatorLink where
  itemID : Int
  creatorID : Int
  creatorTypeID : Int
  orderIndex : Int

/-- `creators` rows. -/
structure CreatorRow where
  creatorID : Int
  firstName : Str
  lastName : Str

/-- `itemData` rows. -/
structure ItemDataRow where
  itemID : Int
  fieldID : Int
  valueID : Int

/-- `collections` rows. -/
structure CollectionRow where
  collectionID : Int
  collectionName : Str
  key : Str

/-- `itemAttachments` rows. -/
structure AttachmentRow where
  path : Str
  itemID : Int
  parentItemID : Option Int

/-- `itemNotes` rows. -/
structure NoteRow where
  parentItemID : Option Int
  note : Str

/-- The mirrored Zotero database as the extraction queries see it. -/
structure ZoteroDB where
  items : List ItemRow
  itemTypes : List (Int × Str)
  itemCreators : List CreatorLink
  creators : List CreatorRow
  creatorTypes : List (Int × Str)
  itemData : List ItemDataRow
  fields : List (Int × Str)
  itemDataValues : List (Int × Str)
  collections : List CollectionRow
  collectionItems : List (Int × Int)
  tags : List (Int × Str)
  itemTags : List (Int × Int)
  itemAttachments : List AttachmentRow
  itemNotes : List NoteRow

/-- The configuration `get_all_items` consults: `config.PERSONAL_ONLY`,
`config.ATTACH_EXTS` and the Zotero storage directory
(`zotero.internal_storage`). -/
structure BackendConfig where
  personalOnly : Bool
  attachExts : List Str
  internalStorage : Str

/-- Model of `_item_type_name`: `SELECT typeName FROM itemTypes WHERE
itemTypeID = ?` with `fetchone`; `none` models an empty result, on which
the source's `r[0]` raises. -/
def _item_type_name (db : ZoteroDB) (tid : Int) : Option Str :=
  (db.itemTypes.find? (fun r => r.1 == tid)).map (fun r => r.2)

/-- Model of `_item_creators`: the `itemCreators` rows of the item, LEFT
JOINed with `creators` and `creatorTypes`; a dangling reference leaves
the joined columns NULL. -/
def _item_creators (db : ZoteroDB) (iid : Int) : List Json :=
  (db.itemCreators.filter (fun l => l.itemID == iid)).map (fun l =>
    let fam := match db.creators.find? (fun c => c.creatorID == l.creatorID) with
      | some c => Json.str c.lastName
      | none => Json.null
    let giv := match db.creators.find? (fun c => c.creatorID == l.creatorID) with
      | some c => Json.str c.firstName
      | none => Json.null
    let typ := match db.creatorTypes.find? (fun t => t.1 == l.creatorTypeID) with
      | some t => Json.str t.2
      | none => Json.null
    Json.obj [("family".data, fam), ("given".data, giv),
              ("type".data, typ), ("index".data, Json.num l.orderIndex)])

/-- The joined rows `_item_metadata` iterates for one item; rows whose
field or value reference dangles (NULL after the LEFT JOIN) are not
modelled. -/
def metadataRows (db : ZoteroDB) (iid : Int) : List MetaRow :=
  (db.itemData.filter (fun d => d.itemID == iid)).filterMap (fun d =>
    match db.fields.find? (fun f => f.1 == d.fieldID),
        db.itemDataValues.find? (fun v => v.1 == d.valueID) with
    | some f, some v => some ⟨d.fieldID, d.valueID, f.2, v.2⟩
    | _, _ => none)

/-- Model of `_item_collections`: collections joined through
`collectionItems` for the item; each yields
`{name, key, library_id: "0", group: "personal"}`. -/
def _item_collections (db : ZoteroDB) (iid : Int) : List Json :=
  (db.collectionItems.filter (fun ci => ci.2 == iid)).filterMap (fun ci =>
    (db.collections.find? (fun c => c.collectionID == ci.1)).map (fun c =>
      Json.obj [("name".data, Json.str c.collectionName),
                ("key".data, Json.str c.key),
                ("library_id".data, Json.str "0".data),
                ("group".data, Json.str "personal".data)]))

/-- Model of `_item_tags`: `itemTags` LEFT JOINed with `tags`. -/
def _item_tags (db : ZoteroDB) (iid : Int) : List Json :=
  (db.itemTags.filter (fun it => it.1 == iid)).map (fun it =>
    match db.tags.find? (fun t => t.1 == it.2) with
    | some t => Json.obj [("name".data, Json.str t.2), ("id".data, Json.num t.1)]
    | none => Json.obj [("name".data, Json.null), ("id".data, Json.null)])

/-- `name.startswith(pat)` on character lists. -/
def startsWithStr : Str → Str → Bool
  | [], _ => true
  | _ :: _, [] => false
  | p :: ps, c :: cs => p == c && startsWithStr ps cs

/-- `name.endswith(pat)` on character lists. -/
def endsWithStr (pat s : Str) : Bool := startsWithStr pat.reverse s.reverse

/-- The prefix-stripping and extension-filtering loops of
`_item_attachments`: for each recognised link marker in order, if the
current name starts with it, strip it and append one attachment record
per matching extension (`os.path.join` modelled as `/`-separated
concatenation). -/
def attachmentEntries (cfg : BackendConfig) (key name0 : Str) : List Json :=
  (["attachment:".data, "storage:".data].foldl
    (fun (state : Str × List Json) pre =>
      let name := state.1
      if startsWithStr pre name then
        let name' := name.drop pre.length
        (name',
          state.2 ++ cfg.attachExts.foldl
            (fun acc x =>
              if endsWithStr x name' then
                acc ++ [Json.obj [("name".data, Json.str name'),
                                  ("key".data, Json.str key),
                                  ("path".data, Json.str
                                    (cfg.internalStorage ++ '/' :: key ++ '/' :: name'))]]
              else acc) [])
      else state)
    (name0, [])).2

/-- Model of `_item_attachments`: the item's `itemAttachments` rows
joined with `items` for the attachment key (rows whose item reference
dangles are not modelled), filtered by link marker and extension. -/
def _item_attachments (cfg : BackendConfig) (db : ZoteroDB) (iid : Int) : List Json :=
  (db.itemAttachments.filter (fun a => a.parentItemID == some iid)).flatMap (fun a =>
    match db.items.find? (fun r => r.itemID == a.itemID) with
    | some r => attachmentEntries cfg r.key a.path
    | none => [])

mutual

/-- Models `lib.utils.HTMLText.strip`: the concatenation of the text
outside `<...>` tags (entity decoding is not modelled). -/
def htmlStrip : Str → Str
  | [] => []
  | '<' :: r => htmlSkipTag r
  | c :: r => c :: htmlStrip r

/-- Skip to the end of the current tag. -/
def htmlSkipTag : Str → Str
  | [] => []
  | '>' :: r => htmlStrip r
  | _ :: r => htmlSkipTag r

end

/-- Model of `_item_notes`: the item's notes, HTML-stripped. -/
def _item_notes (db : ZoteroDB) (iid : Int) : List Json :=
  (db.itemNotes.filter (fun n => n.parentItemID == some iid)).map (fun n =>
    Json.str (htmlStrip n.note))

/-- Insert an item row into a list sorted by descending `dateAdded`
(stable: ties keep their original relative order). -/
def insertByDate (r : ItemRow) : List ItemRow → List ItemRow
  | [] => [r]
  | x :: xs =>
    if x.dateAdded < r.dateAdded then r :: x :: xs else x :: insertByDate r xs

/-- `ORDER BY dateAdded DESC`, modelled as a stable insertion sort. -/
def sortByDateDesc (rows : List ItemRow) : List ItemRow :=
  rows.foldr insertByDate []

theorem mem_insertByDate {x r : ItemRow} {l : List ItemRow} :
    x ∈ insertByDate r l ↔ x = r ∨ x ∈ l := by
  induction l with
  | nil => simp [insertByDate]
  | cons y ys ih =>
    unfold insertByDate
    by_cases h : y.dateAdded < r.dateAdded
    · simp [h]
    · simp [h, ih]
      tauto

theorem mem_sortByDateDesc {x : ItemRow} {rows : List ItemRow} :
    x ∈ sortByDateDesc rows ↔ x ∈ rows := by
  induction rows with
  | nil => simp [sortByDateDesc]
  | cons r rest ih =>
    unfold sortByDateDesc at ih ⊢
    rw [List.foldr_cons, mem_insertByDate, ih, List.mem_cons]

/-- `items[key] = item` on the Python dict, modelled as an ordered
association list with replace-or-append semantics. -/
def dictSet (m : List (Str × Json)) (k : Str) (v : Json) : List (Str × Json) :=
  if m.any (fun kv => kv.1 == k) then
    m.map (fun kv => if kv.1 == k then (kv.1, v) else kv)
  else m ++ [(k, v)]

/-- The per-row body of `get_all_items`'s loop: skip non-personal items
when `PERSONAL_ONLY` is set, fail the whole pass when the type lookup
comes back empty (the source's `r[0]` on `None`), otherwise assemble the
item record and store it under its key. -/
def get_all_items_step (cfg : BackendConfig) (db : ZoteroDB)
    (acc : List (Str × Json)) (r : ItemRow) : Except PyErr (List (Str × Json)) :=
  if cfg.personalOnly && !(r.libraryID == none) then .ok acc
  else
    match _item_type_name db r.itemTypeID with
    | none => .error .typeError
    | some tname =>
      .ok (dictSet acc r.key (Json.obj
        [("key".data, Json.str r.key),
         ("library".data,
           match r.libraryID with
           | some n => Json.num n
           | none => Json.str "0".data),
         ("type".data, Json.str tname),
         ("creators".data, Json.arr (_item_creators db r.itemID)),
         ("data".data, Json.obj ((item_metadata (metadataRows db r.itemID)).map
           (fun kv => (kv.1, Json.str kv.2)))),
         ("zot-collections".data, Json.arr (_item_collections db r.itemID)),
         ("zot-tags".data, Json.arr (_item_tags db r.itemID)),
         ("attachments".data, Json.arr (_item_attachments cfg db r.itemID)),
         ("notes".data, Json.arr (_item_notes db r.itemID))]))

/-- Model of `get_all_items`: select the items whose `itemTypeID` is not
in the exclusion set `(1, 13, 14)` ordered by descending `dateAdded`,
and build the key-indexed mapping of item records; a failed type lookup
aborts the whole pass. -/
def get_all_items (cfg : BackendConfig) (db : ZoteroDB) :
    Except PyErr (List (Str × Json)) :=
  (sortByDateDesc (db.items.filter (fun r =>
    !(r.itemTypeID == 1 || r.itemTypeID == 13 || r.itemTypeID == 14)))).foldlM
      (get_all_items_step cfg db) []

theorem dictSet_keys (m : List (Str × Json)) (k : Str) (v : Json) (k' : Str) :
    (∃ v', (k', v') ∈ dictSet m k v) → (∃ v', (k', v') ∈ m) ∨ k' = k := by
  rintro ⟨v', hv'⟩
  unfold dictSet at hv'
  by_cases h : m.any (fun kv => kv.1 == k)
  · rw [if_pos h] at hv'
    obtain ⟨kv, hmem, heq⟩ := List.mem_map.mp hv'
    by_cases hk : kv.1 = k
    · left
      refine ⟨kv.2, ?_⟩
      have : (k', v') = (kv.1, v) := by rw [← heq]; simp [hk]
      cases this
      simpa using hmem
    · left
      refine ⟨v', ?_⟩
      have : (k', v') = kv := by rw [← heq]; simp [hk]
      rw [this]
      exact hmem
  · rw [if_neg h] at hv'
    rcases List.mem_append.mp hv' with hm | hm
    · exact Or.inl ⟨v', hm⟩
    · right
      simp at hm
      exact hm.1

theorem get_all_items_keys_aux (cfg : BackendConfig) (db : ZoteroDB) :
    ∀ (rows : List ItemRow) (acc m : List (Str × Json)),
      rows.foldlM (get_all_items_step cfg db) acc = .ok m →
      ∀ k, (∃ v, (k, v) ∈ m) →
        (∃ v, (k, v) ∈ acc) ∨ ∃ r ∈ rows, r.key = k := by
  intro rows
  induction rows with
  | nil =>
    intro acc m hm k hk
    cases hm
    exact Or.inl hk
  | cons r rest ih =>
    intro acc m hm k hk
    rw [List.foldlM_cons] at hm
    cases hstep : get_all_items_step cfg db acc r with
    | error e => rw [hstep] at hm; cases hm
    | ok acc' =>
      rw [hstep] at hm
      have hm' : rest.foldlM (get_all_items_step cfg db) acc' = .ok m := hm
      rcases ih acc' m hm' k hk with hin | ⟨r', hr', hkey⟩
      · -- the key came from acc', i.e. from acc or from r
        unfold get_all_items_step at hstep
        by_cases hskip : cfg.personalOnly && !(r.libraryID == none)
        · rw [if_pos hskip] at hstep
          cases hstep
          exact Or.inl hin
        · rw [if_neg hskip] at hstep
          cases htn : _item_type_name db r.itemTypeID with
          | none => rw [htn] at hstep; cases hstep
          | some tname =>
            rw [htn] at hstep
            cases hstep
            rcases dictSet_keys _ _ _ _ hin with hacc | hkr
            · exact Or.inl hacc
            · exact Or.inr ⟨r, by simp, hkr.symm⟩
      · exact Or.inr ⟨r', by simp [hr'], hkey⟩

/-- C7: every top-level key of a successful `get_all_items` pass comes
from an `items` row whose `itemTypeID` is outside the exclusion set
`(1, 13, 14)` (attachments and notes): excluded rows are filtered out by
the `WHERE itemTypeID not IN (1, 13, 14)` clause before any item record
is built, so they never appear as top-level keys and can surface only
nested inside a parent record. -/
theorem claim_C7_excluded_types_not_toplevel (cfg : BackendConfig)
    (db : ZoteroDB) (m : List (Str × Json)) (k : Str)
    (hok : get_all_items cfg db = .ok m) (hk : ∃ v, (k, v) ∈ m) :
    ∃ r ∈ db.items, r.key = k ∧
      r.itemTypeID ≠ 1 ∧ r.itemTypeID ≠ 13 ∧ r.itemTypeID ≠ 14 := by
  unfold get_all_items at hok
  rcases get_all_items_keys_aux cfg db _ [] m hok k hk with hnil | ⟨r, hr, hkey⟩
  · obtain ⟨v, hv⟩ := hnil
    cases hv
  · rw [mem_sortByDateDesc] at hr
    have hmem := List.mem_filter.mp hr
    refine ⟨r, hmem.1, hkey, ?_, ?_, ?_⟩ <;>
      · have hfil := hmem.2
        simp only [Bool.not_eq_true', Bool.or_eq_false_iff, beq_eq_false_iff_ne] at hfil
        tauto

/-- A two-row database for the C7 witness: one journal article and one
note-typed row (excluded type-id 1). -/
def sampleDB : ZoteroDB :=
  ⟨[⟨"ABCD".data, 1, 4, none, 100⟩, ⟨"NOTE".data, 2, 1, none, 50⟩],
   [(4, "journalArticle".data)], [], [], [], [], [], [], [], [], [], [], [], []⟩

/-- Configuration for the C7 witness. -/
def sampleCfg : BackendConfig := ⟨false, [], "/store".data⟩

/-- Witness for C7: in the two-row database the only top-level key is the
article's, and it comes from a row with a non-excluded type-id. -/
theorem claim_C7_excluded_types_not_toplevel_witness :
    ∃ r ∈ sampleDB.items, r.key = "ABCD".data ∧
      r.itemTypeID ≠ 1 ∧ r.itemTypeID ≠ 13 ∧ r.itemTypeID ≠ 14 :=
  claim_C7_excluded_types_not_toplevel sampleCfg sampleDB _ "ABCD".data rfl
    ⟨_, List.Mem.head _⟩
